import Mathlib

/-!
Verification of the aggregation-and-reporting pipeline of the
GitLab/GitHub → Discord velocity report (`src/index.js`).

Modelling conventions (shallow embedding of the JavaScript source):

* Strings whose character-level structure matters (the message chunker)
  are modelled as `List Char`; everywhere else Lean `String` is used.
  JavaScript string lengths are UTF-16 code-unit counts, Lean lengths are
  scalar counts; these agree on all characters appearing in the inputs
  the theorems evaluate (the emoji headers never enter a length
  computation in the source: `formatTable` only measures plain cells).
* A JavaScript field that can be absent, `null`, or the empty string is
  an `Option String`; JS truthiness of such a field is captured by
  `strVal` (both `none` and `some ""` are falsy).  Numeric ids use
  `natVal` (0 is falsy).
* Timestamps are epoch milliseconds (`dayjs(x).valueOf()`) as `Nat`.
  Exact-hour comparisons (`diff(..., "hour", true)`) are rational, hence
  modelled exactly over `ℤ`/`ℚ`; IEEE-754 rounding of `dayjs` floats is
  not modelled (it cannot change any comparison appearing here at the
  millisecond magnitudes involved, and no claim depends on it).
* `Math.round(x)` for the nonnegative rationals appearing in the source
  is round-half-up, i.e. `⌊x + 1/2⌋`; on `Nat` inputs `c`, `T` the
  percentage `Math.round((c / T) * 100)` is `(200 * c + T) / (2 * T)`.
* `Array.prototype.sort(cmp)` with a consistent comparator is, per the
  ECMAScript specification, a stable sort; it is modelled by
  `List.insertionSort` (a stable sort, and kernel-computable, unlike
  `List.mergeSort`) over the relation `cmp a b ≤ 0`.
* JavaScript `Map` (insertion-ordered, unique keys) is an association
  list updated by `addToMember`, which updates the first entry with the
  given key and appends a fresh entry at the end when the key is new —
  exactly `map.set` / `map.get` followed by iteration over `values()`.
-/

namespace Velocity

/-! ### JS truthiness helpers -/

/-- Truthy value of an optional JS string: `null`/`undefined`/`""` are falsy. -/
def strVal : Option String → Option String
  | some s => if s = "" then none else some s
  | none => none

/-- Truthy value of an optional JS number used as an id: `0` is falsy. -/
def natVal : Option Nat → Option Nat
  | some n => if n = 0 then none else some n
  | none => none

/-- `n === 1 ? "" : "s"` — the pluralisation used throughout the renderer. -/
def sIf (n : Nat) : String := if n = 1 then "" else "s"

/-! ### The message chunker (`chunkMessage`, src/index.js lines 578–607)

The chunker works on raw text split at `"\n"`; it is modelled on
`List Char`.  `hardSplit` is the inner `while` loop that slices an
over-long line into `limit`-sized pieces; it is written with explicit
fuel (`= line.length`, enough whenever `limit ≥ 1`) so that it is
structurally recursive and kernel-computable.  For `limit = 0` the
JavaScript loop does not terminate, so no claim is stated there. -/

/-- JS `text.split("\n")`: the empty text yields `[[]]`. -/
def splitLines : List Char → List (List Char)
  | [] => [[]]
  | c :: rest =>
    if c = '\n' then [] :: splitLines rest
    else
      match splitLines rest with
      | [] => [[c]]
      | l :: ls => (c :: l) :: ls

/-- Inverse of `splitLines`: join lines with `'\n'`. -/
def joinLines : List (List Char) → List Char
  | [] => []
  | [l] => l
  | l :: ls => l ++ '\n' :: joinLines ls

/-- Fuelled body of the hard-split `while` loop:
`chunks.push(line.slice(index, index + limit)); index += limit`. -/
def hardSplitGo (limit : Nat) : Nat → List Char → List (List Char)
  | _, [] => []
  | 0, _ :: _ => []
  | fuel + 1, c :: cs => (c :: cs).take limit :: hardSplitGo limit fuel ((c :: cs).drop limit)

/-- Hard split of one over-long line into `limit`-sized slices. -/
def hardSplit (limit : Nat) (line : List Char) : List (List Char) :=
  hardSplitGo limit line.length line

/-- The `for (const line of lines)` loop of `chunkMessage`, with the
accumulator `current`; the final `if (current) chunks.push(current)` is
the base case. -/
def chunkCore (limit : Nat) : List (List Char) → List Char → List (List Char)
  | [], current => if current.isEmpty then [] else [current]
  | line :: rest, current =>
    let candidate := if current.isEmpty then line else current ++ '\n' :: line
    if candidate.length ≤ limit then chunkCore limit rest candidate
    else
      (if current.isEmpty then [] else [current]) ++
        (if line.length ≤ limit then chunkCore limit rest line
         else hardSplit limit line ++ chunkCore limit rest [])

/-- `chunkMessage(text, limit)` (the source calls it with `limit = 1800`). -/
def chunkMessage (text : List Char) (limit : Nat) : List (List Char) :=
  if text.isEmpty then [] else chunkCore limit (splitLines text) []

/-! Instrumented chunker for the re-joining property: it additionally
records, between two consecutive chunks, whether the boundary consumed a
newline of the original text (`nl`) or fell inside a hard-split over-long
line (no separator).  `pieceChunks` projects back to `chunkCore`. -/

/-- A chunk or a recorded newline boundary. -/
inductive Piece where
  | chunk (c : List Char)
  | nl
deriving DecidableEq

/-- Text reconstructed from pieces: the separator removed at each
line-boundary split is reinserted as `'\n'`, nothing is inserted at a
hard split. -/
def pieceText : List Piece → List Char
  | [] => []
  | .chunk c :: ps => c ++ pieceText ps
  | .nl :: ps => '\n' :: pieceText ps

/-- The chunks among the pieces, in order. -/
def pieceChunks : List Piece → List (List Char)
  | [] => []
  | .chunk c :: ps => c :: pieceChunks ps
  | .nl :: ps => pieceChunks ps

/-- `chunkCore` instrumented with boundary records. -/
def chunkCoreP (limit : Nat) : List (List Char) → List Char → List Piece
  | [], current => if current.isEmpty then [] else [.chunk current]
  | line :: rest, current =>
    let candidate := if current.isEmpty then line else current ++ '\n' :: line
    if candidate.length ≤ limit then chunkCoreP limit rest candidate
    else
      (if current.isEmpty then [] else [.chunk current, .nl]) ++
        (if line.length ≤ limit then chunkCoreP limit rest line
         else (hardSplit limit line).map .chunk ++
           (if rest.isEmpty then [] else [.nl]) ++ chunkCoreP limit rest [])

/-- `chunkMessage` instrumented with boundary records. -/
def chunkPieces (text : List Char) (limit : Nat) : List Piece :=
  if text.isEmpty then [] else chunkCoreP limit (splitLines text) []

/-- Lengths of the slices `hardSplit limit` produces from a line of `n`
characters (fuelled like `hardSplitGo`); lets concrete slice counts be
computed without evaluating long character lists. -/
def sliceLensGo (limit : Nat) : Nat → Nat → List Nat
  | _, 0 => []
  | 0, _ + 1 => []
  | fuel + 1, n + 1 => min limit (n + 1) :: sliceLensGo limit fuel (n + 1 - limit)

/-- Slice lengths of a hard-split line of `n` characters. -/
def sliceLens (limit n : Nat) : List Nat := sliceLensGo limit n n

/-! ### Activity records and author resolution (src/index.js lines 241–249)

`ActivityEntry` carries exactly the fields of the simplified records
(`simplifyCommit` / `simplifyMr` / `simplifyIssue` and their GitHub
counterparts) that the verified functions read; a field that a given
record kind does not carry is `none`. -/

/-- The structured `author` object of a record. -/
structure Author where
  name : Option String
  username : Option String
  email : Option String
deriving DecidableEq

/-- A normalized activity record (commit / change request / issue). -/
structure ActivityEntry where
  author : Option Author
  author_name : Option String
  author_email : Option String
  title : Option String
  web_url : Option String
  projectName : Option String
  id : Option Nat
  iid : Option Nat
  created_at : Option Nat
  updated_at : Option Nat
  merged_at : Option Nat
  closed_at : Option Nat
deriving DecidableEq

/-- An entry with every field absent; concrete fixtures update it. -/
def emptyEntry : ActivityEntry :=
  ⟨none, none, none, none, none, none, none, none, none, none, none, none⟩

/-- `resolveAuthorName(entry)`:
`entry.author?.name || entry.author?.username || entry.author_name ||
entry.author_email || entry.author?.email || "Unknown"`, where `||`
is JS short-circuit on falsy values (absent or empty string). -/
def resolveAuthorName (entry : Option ActivityEntry) : String :=
  match entry with
  | none => "Unknown"
  | some e =>
    (((((strVal (e.author.bind Author.name)).or
        (strVal (e.author.bind Author.username))).or
        (strVal e.author_name)).or
        (strVal e.author_email)).or
        (strVal (e.author.bind Author.email))).getD "Unknown"

/-! ### Member summaries (`buildMemberSummaries`, src/index.js lines 324–384) -/

/-- One contributor summary row. -/
structure MemberSummary where
  name : String
  commits : Nat
  commitPct : Nat
  mergedMrs : Nat
  openedMrs : Nat
  issuesOpened : Nat
  issuesClosed : Nat
deriving DecidableEq

/-- The zero-count entry `ensure` creates for a new name. -/
def blankMember (name : String) : MemberSummary := ⟨name, 0, 0, 0, 0, 0, 0⟩

/-- `ensure(name)` followed by a mutation `f` of the entry: update the
(unique) entry with this name, or append a freshly created one at the
end — JS `Map` keeps insertion order and unique keys. -/
def addToMember (f : MemberSummary → MemberSummary) (name : String) :
    List MemberSummary → List MemberSummary
  | [] => [f (blankMember name)]
  | m :: ms => if m.name = name then f m :: ms else m :: addToMember f name ms

/-- One iteration of any of the five accumulation loops: resolve the
author of the record, `ensure` the entry, apply the count increment
`inc`. -/
def stepWith (inc : MemberSummary → MemberSummary) (ms : List MemberSummary)
    (r : ActivityEntry) : List MemberSummary :=
  addToMember inc (resolveAuthorName (some r)) ms

/-- The five record collections `buildMemberSummaries` receives. -/
structure ActivityBatch where
  commits : List ActivityEntry
  mrsMerged : List ActivityEntry
  mrsOpened : List ActivityEntry
  issuesOpened : List ActivityEntry
  issuesClosed : List ActivityEntry
deriving DecidableEq

/-- The accumulation phase: the five `for` loops, in source order
(commits, merged requests, opened requests, opened issues, closed issues). -/
def memberAccum (b : ActivityBatch) : List MemberSummary :=
  b.issuesClosed.foldl (stepWith fun m => { m with issuesClosed := m.issuesClosed + 1 })
    (b.issuesOpened.foldl (stepWith fun m => { m with issuesOpened := m.issuesOpened + 1 })
      (b.mrsOpened.foldl (stepWith fun m => { m with openedMrs := m.openedMrs + 1 })
        (b.mrsMerged.foldl (stepWith fun m => { m with mergedMrs := m.mergedMrs + 1 })
          (b.commits.foldl (stepWith fun m => { m with commits := m.commits + 1 }) []))))

/-- `entry.commitPct = totalCommits ? Math.round((entry.commits / totalCommits) * 100) : 0`;
`Math.round` on these nonnegative rationals is `⌊x + 1/2⌋`, i.e.
`(200 * c + T) / (2 * T)` in natural division. -/
def applyCommitPct (total : Nat) (ms : List MemberSummary) : List MemberSummary :=
  ms.map fun m =>
    { m with commitPct := if total = 0 then 0 else (200 * m.commits + total) / (2 * total) }

/-- The sort comparator of `buildMemberSummaries` as the relation
`cmp a b ≤ 0` (`a` may stay before `b`): merged requests descending,
then commits descending, then issues closed descending, then name
ascending (`localeCompare` modelled as lexicographic order). -/
def MemberLE (a b : MemberSummary) : Prop :=
  b.mergedMrs < a.mergedMrs ∨
    (b.mergedMrs = a.mergedMrs ∧
      (b.commits < a.commits ∨
        (b.commits = a.commits ∧
          (b.issuesClosed < a.issuesClosed ∨
            (b.issuesClosed = a.issuesClosed ∧ a.name.data ≤ b.name.data)))))

instance : DecidableRel MemberLE := fun a b => by unfold MemberLE; exact inferInstance

/-- The strict version of the ranking: `a` sorts strictly before `b`. -/
def MemberLT (a b : MemberSummary) : Prop := MemberLE a b ∧ ¬ MemberLE b a

instance : DecidableRel MemberLT := fun a b => by unfold MemberLT; exact inferInstance

/-- `buildMemberSummaries({commits, mrsMerged, mrsOpened, issuesOpened, issuesClosed})`:
accumulate, attach commit percentages, and sort (JS `Array#sort` is
stable; `insertionSort` is the stable sort on `MemberLE`). -/
def buildMemberSummaries (b : ActivityBatch) : List MemberSummary :=
  List.insertionSort MemberLE (applyCommitPct b.commits.length (memberAccum b))

/-! ### Rendering helpers (`formatCount`, `formatTable`) -/

/-- `Number(n).toLocaleString("en-US")` for a natural number: decimal
digits grouped in threes by commas (the hard-split of the reversed digit
string reuses `hardSplit`). -/
def formatCount (n : Nat) : String :=
  ⟨(((hardSplit 3 (Nat.repr n).data.reverse).intersperse [',']).flatten).reverse⟩

/-- Column-width accumulation of `formatTable`:
`widths[idx] = Math.max(widths[idx] || 0, cell.length)`. -/
def mergeWidths : List Nat → List String → List Nat
  | ws, [] => ws
  | [], c :: cs => c.length :: mergeWidths [] cs
  | w :: ws, c :: cs => max w c.length :: mergeWidths ws cs

/-- The column widths of a table. -/
def tableWidths (rows : List (List String)) : List Nat := rows.foldl mergeWidths []

/-- A non-final cell padded to its column width plus two spaces. -/
def padCell (w : Nat) (c : String) : String :=
  c ++ String.mk (List.replicate (w - c.length + 2) ' ')

/-- One table row: every cell but the last is padded. -/
def renderCells : List Nat → List String → String
  | _, [] => ""
  | _, [c] => c
  | [], c :: cs => c ++ renderCells [] cs
  | w :: ws, c :: cs => padCell w c ++ renderCells ws cs

/-- `formatTable(rows)`: a fenced `text` block of aligned rows
(empty string for no rows). -/
def formatTable (rows : List (List String)) : String :=
  if rows.isEmpty then ""
  else
    "```text\n" ++ String.intercalate "\n" (rows.map (renderCells (tableWidths rows))) ++ "\n```"

/-- `` `#${item.iid || item.id || "?"}` `` — the id shown when a record
has no title. -/
def idRefStr (e : ActivityEntry) : String :=
  (((natVal e.iid).or (natVal e.id)).map Nat.repr).getD "?"

/-! ### Major features (`formatMajorFeatures`, src/index.js lines 452–468) -/

/-- The sort key of `formatMajorFeatures`:
`mr.merged_at || mr.updated_at || mr.created_at` — the FIRST PRESENT of
the three timestamps (not their maximum).  The `getD 0` default is never
reached on merged requests, which always carry `merged_at`. -/
def mfKey (e : ActivityEntry) : Nat :=
  ((e.merged_at.or e.updated_at).or e.created_at).getD 0

/-- `a` may stay before `b` under the comparator
`dayjs(bTime).valueOf() - dayjs(aTime).valueOf()` (descending key). -/
def MfLE (a b : ActivityEntry) : Prop := mfKey b ≤ mfKey a

instance : DecidableRel MfLE := fun a b => by unfold MfLE; exact inferInstance

/-- The top five change requests by descending `mfKey` (stable). -/
def mfTop (mrs : List ActivityEntry) : List ActivityEntry :=
  (List.insertionSort MfLE mrs).take 5

/-- One rendered major-feature bullet: linked title plus owning
repository name. -/
def mfLine (mr : ActivityEntry) : String :=
  let title := (strVal mr.title).getD ("Merge Request #" ++ idRefStr mr)
  let link := match strVal mr.web_url with
    | some u => "[" ++ title ++ "](" ++ u ++ ")"
    | none => title
  let proj := match strVal mr.projectName with
    | some p => " (" ++ p ++ ")"
    | none => ""
  "• " ++ link ++ proj

/-- `formatMajorFeatures(mrs)`: `null` when empty, else header plus the
top five bullets. -/
def formatMajorFeatures (mrs : List ActivityEntry) : Option String :=
  if mrs.isEmpty then none
  else some (String.intercalate "\n" ("**✨ Major Features Shipped**" :: (mfTop mrs).map mfLine))

/-- Modelled from the spec: the "most recent of (merged_at, updated_at,
created_at)" ranking key the spec describes (maximum of the present
timestamps), for comparison with the `mfKey` the code uses. -/
def specMostRecentTimestamp (e : ActivityEntry) : Nat :=
  ([e.merged_at, e.updated_at, e.created_at].filterMap id).foldr max 0

/-! ### Bug activity (`formatBugActivity`, src/index.js lines 470–502) -/

/-- `issue.title || "Issue #..."`. -/
def issueTitle (e : ActivityEntry) : String :=
  (strVal e.title).getD ("Issue #" ++ idRefStr e)

/-- `dayjs(closed).diff(dayjs(created), "hour", true) <= 24` — a
same-day fix; `false` when either timestamp is missing. -/
def isSameDayFix (e : ActivityEntry) : Bool :=
  match e.closed_at, e.created_at with
  | some c, some o => decide ((c : Int) - (o : Int) ≤ 86400000)
  | _, _ => false

/-- `formatBugActivity(issuesOpened, issuesClosed)` — note: this
formatter ALWAYS returns a block (there is no `null` branch in the
source); with no input it renders a zero table plus a
"no bug activity" note. -/
def formatBugActivity (issuesOpened issuesClosed : List ActivityEntry) : String :=
  let sameDay := (issuesClosed.filter isSameDayFix).length
  let fixedCount := issuesClosed.length
  let openedCount := issuesOpened.length
  let sameDayValue :=
    if fixedCount ≠ 0 then formatCount sameDay ++ "/" ++ formatCount fixedCount else "0"
  let rows := [["Fixed", formatCount fixedCount ++ " issue" ++ sIf fixedCount],
               ["Same-day fixes", sameDayValue],
               ["Opened", formatCount openedCount ++ " issue" ++ sIf openedCount]]
  let base := ["**🐛 Bug Activity**", formatTable rows]
  let highlights := issuesClosed.take 3
  let lines :=
    if ¬ highlights.isEmpty then
      base ++ ["**Highlights**"] ++ highlights.map (fun i => "• " ++ issueTitle i)
    else if fixedCount = 0 ∧ openedCount = 0 then
      base ++ ["_No bug activity recorded in this window._"]
    else base
  String.intercalate "\n" lines

/-! ### Velocity highlights (`formatVelocityHighlights`, src/index.js lines 504–534) -/

/-- The fields `main` passes to `formatVelocityHighlights`. -/
structure VelocityStats where
  totalMRMerged : Nat
  totalMROpened : Nat
  totalCommits : Nat
  totalIssuesClosed : Nat
  mrsMerged : List ActivityEntry
  hasMultiOrg : Bool
deriving DecidableEq

/-- `Math.round((totalMRMerged / denominator) * 100)` where
`denominator = totalMROpened || totalMRMerged || 1` — the first nonzero
of (opened, merged), else 1; NOT `max(opened, merged, 1)`. -/
def velocityMergeRate (merged opened : Nat) : Nat :=
  let denominator := if opened ≠ 0 then opened else if merged ≠ 0 then merged else 1
  (200 * merged + denominator) / (2 * denominator)

/-- Modelled from the spec: the merge rate as the spec words it,
`merged / max(opened, merged, 1)` as a rounded percentage, for
comparison with `velocityMergeRate`. -/
def specMergeRate (merged opened : Nat) : Nat :=
  let denominator := max opened (max merged 1)
  (200 * merged + denominator) / (2 * denominator)

/-- Sorted absolute merge turnaround times in exact hours. -/
def mergedDurationsQ (mrs : List ActivityEntry) : List ℚ :=
  List.insertionSort (· ≤ ·)
    (mrs.filterMap fun mr =>
      match mr.merged_at, mr.created_at with
      | some m, some c => some (|((m : ℚ) - (c : ℚ))| / 3600000)
      | _, _ => none)

/-- `x.toFixed(1)` for the nonnegative rationals appearing here:
round half up to one decimal place. -/
def fixedOneDecimal (q : ℚ) : String :=
  let t : ℤ := ⌊q * 10 + 1 / 2⌋
  toString (t / 10) ++ "." ++ toString (t % 10)

/-- The bullet lines of the velocity-highlights block. -/
def velocityLines (v : VelocityStats) : List String :=
  let base := ["**🚀 Velocity Highlights**",
    "• Merge rate: " ++ Nat.repr (velocityMergeRate v.totalMRMerged v.totalMROpened) ++ "%"]
  let commitsL := if v.totalCommits ≠ 0 then ["• Commits: " ++ formatCount v.totalCommits] else []
  let issuesL :=
    if v.totalIssuesClosed ≠ 0 then ["• Issues closed: " ++ formatCount v.totalIssuesClosed] else []
  let orgL := if v.hasMultiOrg then ["• Multi-org delivery 💼"] else []
  let durations := mergedDurationsQ v.mrsMerged
  let medianL :=
    if durations.isEmpty then []
    else
      let mid := durations.length / 2
      let median :=
        if durations.length % 2 = 1 then durations.getD mid 0
        else (durations.getD (mid - 1) 0 + durations.getD mid 0) / 2
      let label := if median ≤ 24 then "Fast turnaround" else "Median merge time"
      ["• " ++ label ++ ": " ++ fixedOneDecimal median ++ "h"]
  base ++ commitsL ++ issuesL ++ orgL ++ medianL

/-- `formatVelocityHighlights`: `null` when merged, commits and closed
issues are all zero; otherwise the joined bullet lines. -/
def formatVelocityHighlights (v : VelocityStats) : Option String :=
  if v.totalMRMerged = 0 ∧ v.totalCommits = 0 ∧ v.totalIssuesClosed = 0 then none
  else some (String.intercalate "\n" (velocityLines v))

/-! ### Per-repository results and the aggregation in `main`
(src/index.js lines 948–1086; only the pure aggregation and rendering
after collection is modelled — network collection is out of scope). -/

/-- A `ProjectResult`: the per-repository bundle a collector returns
(the fields the aggregator and renderer read; `projectWebUrl` and
`projectInfo` are read by no modelled function). -/
structure ProjectResult where
  projectId : String
  projectName : String
  projectPath : String
  commits : List ActivityEntry
  mrsOpened : List ActivityEntry
  mrsMerged : List ActivityEntry
  issuesOpened : List ActivityEntry
  issuesClosed : List ActivityEntry
  monthIssuesOpened : List ActivityEntry
  monthIssuesClosed : List ActivityEntry
deriving DecidableEq

/-- The configuration values the rendering pipeline reads. -/
structure ReportConfig where
  reportTitle : String
  windowLabel : String
  orgLabelInternal : String
  orgLabelClient : String
  clientProjectIds : List String
deriving DecidableEq

/-- `hasActivity(project)`: some record in one of the five primary
collections. -/
def hasActivity (p : ProjectResult) : Bool :=
  !p.commits.isEmpty || !p.mrsOpened.isEmpty || !p.mrsMerged.isEmpty ||
    !p.issuesOpened.isEmpty || !p.issuesClosed.isEmpty

/-- `activeResults`. -/
def activeOf (results : List ProjectResult) : List ProjectResult :=
  results.filter hasActivity

/-- `inactiveResults`. -/
def inactiveOf (results : List ProjectResult) : List ProjectResult :=
  results.filter fun p => !hasActivity p

/-- `String(id).includes("/")` — GitHub identifiers are `owner/name`. -/
def isGithubProjectId (id : String) : Bool := id.contains '/'

/-- `CLIENT_PROJECT_ID_SET.has(String(project.projectId).toLowerCase())`. -/
def isClientProject (cfg : ReportConfig) (p : ProjectResult) : Bool :=
  (cfg.clientProjectIds.map String.toLower).contains p.projectId.toLower

/-- `internalActive`. -/
def internalActiveOf (cfg : ReportConfig) (results : List ProjectResult) : List ProjectResult :=
  (activeOf results).filter fun p => !isClientProject cfg p

/-- `clientActive`. -/
def clientActiveOf (cfg : ReportConfig) (results : List ProjectResult) : List ProjectResult :=
  (activeOf results).filter (isClientProject cfg)

/-- `activeResults.reduce((sum, p) => sum + p.commits.length, 0)`. -/
def totalCommitsOf (results : List ProjectResult) : Nat :=
  (activeOf results).foldl (fun s p => s + p.commits.length) 0

/-- Total opened change requests across active repositories. -/
def totalMROpenedOf (results : List ProjectResult) : Nat :=
  (activeOf results).foldl (fun s p => s + p.mrsOpened.length) 0

/-- Total merged change requests across active repositories. -/
def totalMRMergedOf (results : List ProjectResult) : Nat :=
  (activeOf results).foldl (fun s p => s + p.mrsMerged.length) 0

/-- Total issues opened across active repositories. -/
def totalIssuesOpenedOf (results : List ProjectResult) : Nat :=
  (activeOf results).foldl (fun s p => s + p.issuesOpened.length) 0

/-- Total issues closed across active repositories. -/
def totalIssuesClosedOf (results : List ProjectResult) : Nat :=
  (activeOf results).foldl (fun s p => s + p.issuesClosed.length) 0

/-- Month-to-date opened issues across ALL results (active and not). -/
def totalMonthIssuesOpenedOf (results : List ProjectResult) : Nat :=
  results.foldl (fun s p => s + p.monthIssuesOpened.length) 0

/-- Month-to-date closed issues across ALL results (active and not). -/
def totalMonthIssuesClosedOf (results : List ProjectResult) : Nat :=
  results.foldl (fun s p => s + p.monthIssuesClosed.length) 0

/-- `allCommits` (flat-mapped over active results, in order). -/
def allCommitsOf (results : List ProjectResult) : List ActivityEntry :=
  (activeOf results).flatMap ProjectResult.commits

/-- `allMrsOpened`. -/
def allMrsOpenedOf (results : List ProjectResult) : List ActivityEntry :=
  (activeOf results).flatMap ProjectResult.mrsOpened

/-- `allMrsMerged`. -/
def allMrsMergedOf (results : List ProjectResult) : List ActivityEntry :=
  (activeOf results).flatMap ProjectResult.mrsMerged

/-- `allIssuesOpened`. -/
def allIssuesOpenedOf (results : List ProjectResult) : List ActivityEntry :=
  (activeOf results).flatMap ProjectResult.issuesOpened

/-- `allIssuesClosed`. -/
def allIssuesClosedOf (results : List ProjectResult) : List ActivityEntry :=
  (activeOf results).flatMap ProjectResult.issuesClosed

/-- `new Set(allCommits.map(resolveAuthorName)).size`. -/
def contributorsCountOf (results : List ProjectResult) : Nat :=
  ((allCommitsOf results).map (fun c => resolveAuthorName (some c))).eraseDups.length

/-- The `ActivityBatch` handed to `buildMemberSummaries` by `main`. -/
def batchOf (results : List ProjectResult) : ActivityBatch :=
  ⟨allCommitsOf results, allMrsMergedOf results, allMrsOpenedOf results,
    allIssuesOpenedOf results, allIssuesClosedOf results⟩

/-- `organizationSummary`: `"N (Internal + Client)"` over the active
organisation labels, or `"0 (no active orgs)"`. -/
def organizationSummaryOf (cfg : ReportConfig) (results : List ProjectResult) : String :=
  let labels :=
    (if (internalActiveOf cfg results).length ≠ 0 then [cfg.orgLabelInternal] else []) ++
      (if (clientActiveOf cfg results).length ≠ 0 then [cfg.orgLabelClient] else [])
  if labels.length ≠ 0 then
    Nat.repr labels.length ++ " (" ++ String.intercalate " + " labels ++ ")"
  else "0 (no active orgs)"

/-- `summaryLine`: the one-line totals, or the fixed no-activity
sentence when no repository is active. -/
def summaryLineOf (results : List ProjectResult) : String :=
  if (activeOf results).length ≠ 0 then
    Nat.repr (totalMRMergedOf results) ++ " PR" ++ sIf (totalMRMergedOf results) ++ " merged | " ++
      Nat.repr (totalCommitsOf results) ++ " commit" ++ sIf (totalCommitsOf results) ++ " | " ++
      Nat.repr (totalIssuesClosedOf results) ++ " issue" ++ sIf (totalIssuesClosedOf results) ++
      " closed"
  else "No activity recorded in the selected window."

/-! ### The remaining formatters -/

/-- The inputs of `formatTeamMetrics`. -/
structure TeamMetricsInput where
  organizationSummary : String
  totalMRMerged : Nat
  totalMROpened : Nat
  totalCommits : Nat
  totalIssuesOpened : Nat
  totalIssuesClosed : Nat
  totalIssuesOpenedMonth : Nat
  totalIssuesClosedMonth : Nat
  activeRepos : Nat
  contributors : Nat
deriving DecidableEq

/-- `formatTeamMetrics`: header, subtitle, and the fixed-order table. -/
def formatTeamMetrics (t : TeamMetricsInput) : String :=
  let rows := [["Organizations", t.organizationSummary],
    ["PRs Merged", formatCount t.totalMRMerged],
    ["PRs Opened", formatCount t.totalMROpened],
    ["Commits", formatCount t.totalCommits],
    ["Issues Opened (day)", formatCount t.totalIssuesOpened],
    ["Issues Closed (day)", formatCount t.totalIssuesClosed],
    ["Issues Opened (month)", formatCount t.totalIssuesOpenedMonth],
    ["Issues Closed (month)", formatCount t.totalIssuesClosedMonth],
    ["Active Repos", formatCount t.activeRepos],
    ["Contributors", formatCount t.contributors]]
  String.intercalate "\n"
    ["**⚙️ Team Metrics**", "_Totals combine GitLab + GitHub repositories_", formatTable rows]

/-- The repository comparator used by `formatOrgSummary` and
`formatRepoTable` as the relation `cmp a b ≤ 0`: merged descending,
commits descending, name ascending. -/
def OrgLE (a b : ProjectResult) : Prop :=
  b.mrsMerged.length < a.mrsMerged.length ∨
    (b.mrsMerged.length = a.mrsMerged.length ∧
      (b.commits.length < a.commits.length ∨
        (b.commits.length = a.commits.length ∧ a.projectName.data ≤ b.projectName.data)))

instance : DecidableRel OrgLE := fun a b => by unfold OrgLE; exact inferInstance

/-- One repository line of a per-organisation summary. -/
def orgProjectLine (p : ProjectResult) : String :=
  let merged := p.mrsMerged.length
  let commits := p.commits.length
  let issuesOpened := p.issuesOpened.length
  let issuesClosed := p.issuesClosed.length
  let parts :=
    (if merged ≠ 0 then ["PRs: " ++ formatCount merged] else []) ++
      (if commits ≠ 0 then ["Commits: " ++ formatCount commits] else []) ++
      (if issuesOpened ≠ 0 ∨ issuesClosed ≠ 0 then
        ["Issues: +" ++ formatCount issuesOpened ++ "/-" ++ formatCount issuesClosed] else [])
  let summary := if parts.isEmpty then "No activity recorded" else String.intercalate " • " parts
  let displayName :=
    if p.projectName ≠ "" then p.projectName
    else if p.projectPath ≠ "" then p.projectPath
    else p.projectId
  let icon := if isGithubProjectId p.projectId then "🐙" else "🦊"
  icon ++ " " ++ displayName ++ " — " ++ summary

/-- `formatOrgSummary(label, projects)`: `null` when no projects, else
header, top three repositories, and an overflow line. -/
def formatOrgSummary (label : String) (projects : List ProjectResult) : Option String :=
  if projects.isEmpty then none
  else
    let sorted := List.insertionSort OrgLE projects
    let display := sorted.take 3
    let more :=
      if display.length < sorted.length then
        let remaining := sorted.length - display.length
        ["…and " ++ Nat.repr remaining ++ " more active repo" ++ sIf remaining ++ "."]
      else []
    some (String.intercalate "\n"
      ((("**📂 " ++ label ++ "**") :: display.map orgProjectLine) ++ more))

/-- `formatCommitBreakdown(members, totalCommits)`: `null` when no
commits, else a table of the top eight committers plus a TOTAL row. -/
def formatCommitBreakdown (members : List MemberSummary) (totalCommits : Nat) : Option String :=
  if totalCommits = 0 then none
  else
    let top := (members.filter fun m => m.commits ≠ 0).take 8
    let rows := [["Contributor", "Commits", "%"], ["-----------", "-------", "--"]] ++
      top.map (fun m =>
        [m.name, Nat.repr m.commits,
          if m.commitPct ≠ 0 then Nat.repr m.commitPct ++ "%" else "0%"]) ++
      [["TOTAL", Nat.repr totalCommits, "100%"]]
    some ("**Commit Breakdown**\n" ++ formatTable rows)

/-- `formatRepoTable(projects, totals)`: `null` when no projects, else
the top-ten table plus a TOTAL row. -/
def formatRepoTable (projects : List ProjectResult) (totalMRMerged totalCommits : Nat) :
    Option String :=
  if projects.isEmpty then none
  else
    let sorted := List.insertionSort OrgLE projects
    let rows := [["Repo", "PRs", "Commits"], ["----", "---", "-------"]] ++
      (sorted.take 10).map (fun p =>
        [p.projectName, Nat.repr p.mrsMerged.length, Nat.repr p.commits.length]) ++
      [["TOTAL", Nat.repr totalMRMerged, Nat.repr totalCommits]]
    some ("**📊 By Repository (Top 10)**\n" ++ formatTable rows)

/-- `formatInactiveSummary(projects)`: `null` when empty, else the
one-line inactive count. -/
def formatInactiveSummary (projects : List ProjectResult) : Option String :=
  if projects.isEmpty then none
  else some ("_ℹ️ No tracked activity in " ++ Nat.repr projects.length ++ " repo" ++
    sIf projects.length ++ " this window._")

/-! ### Message-group assembly in `main` -/

/-- The `VelocityStats` record `main` builds. -/
def velocityStatsOf (cfg : ReportConfig) (results : List ProjectResult) : VelocityStats :=
  ⟨totalMRMergedOf results, totalMROpenedOf results, totalCommitsOf results,
    totalIssuesClosedOf results, allMrsMergedOf results,
    !(internalActiveOf cfg results).isEmpty && !(clientActiveOf cfg results).isEmpty⟩

/-- The `📊 **title – label**` header line. -/
def titleBlock (cfg : ReportConfig) : String :=
  "📊 **" ++ cfg.reportTitle ++ " – " ++ cfg.windowLabel ++ "**"

/-- The team-metrics block as `main` builds it. -/
def teamMetricsBlockOf (cfg : ReportConfig) (results : List ProjectResult) : String :=
  formatTeamMetrics ⟨organizationSummaryOf cfg results, totalMRMergedOf results,
    totalMROpenedOf results, totalCommitsOf results, totalIssuesOpenedOf results,
    totalIssuesClosedOf results, totalMonthIssuesOpenedOf results,
    totalMonthIssuesClosedOf results, (activeOf results).length, contributorsCountOf results⟩

/-- The `organizationalBlocks` array after `.filter(Boolean)` (which
drops `null` blocks and empty strings). -/
def mainOrganizationalBlocks (cfg : ReportConfig) (results : List ProjectResult) : List String :=
  (([some (titleBlock cfg), some (summaryLineOf results),
      some (teamMetricsBlockOf cfg results),
      formatVelocityHighlights (velocityStatsOf cfg results),
      some (formatBugActivity (allIssuesOpenedOf results) (allIssuesClosedOf results))]
    : List (Option String)).filterMap id).filter fun s => !s.isEmpty

/-- The `projectBlocks` array after `.filter(Boolean)`. -/
def mainProjectBlocks (cfg : ReportConfig) (results : List ProjectResult) : List String :=
  (([some "**Project Metrics**",
      formatOrgSummary cfg.orgLabelInternal (internalActiveOf cfg results),
      formatOrgSummary cfg.orgLabelClient (clientActiveOf cfg results),
      formatMajorFeatures (allMrsMergedOf results),
      formatRepoTable
        (if (activeOf results).length ≠ 0 then activeOf results else results.take 8)
        (totalMRMergedOf results) (totalCommitsOf results),
      formatInactiveSummary (inactiveOf results)]
    : List (Option String)).filterMap id).filter fun s => !s.isEmpty

/-! ### Concrete fixtures used by witnesses and counterexamples -/

/-- A 1803-character message: an 1800-character line, a blank line, `"B"`. -/
def cexC4Text : List Char := List.replicate 1800 'a' ++ '\n' :: '\n' :: ['B']

/-- A commit by Alice (structured author name only). -/
def commitAlice : ActivityEntry := { emptyEntry with author := some ⟨some "Alice", none, none⟩ }

/-- A commit by Bob (structured author name only). -/
def commitBob : ActivityEntry := { emptyEntry with author := some ⟨some "Bob", none, none⟩ }

/-- Three commits by Alice and two by Bob, nothing else. -/
def batchAliceBob : ActivityBatch :=
  ⟨[commitAlice, commitAlice, commitAlice, commitBob, commitBob], [], [], [], []⟩

/-- A record whose only author information is the `author_email` field. -/
def emailOnlyEntry : ActivityEntry := { emptyEntry with author_email := some "dev@example.com" }

/-- A merged request: created at 1, merged at 10, updated at 30. -/
def mrEarlyMergeLateUpdate : ActivityEntry :=
  { emptyEntry with
    title := some "A"
    projectName := some "repo"
    id := some 1
    iid := some 1
    created_at := some 1
    updated_at := some 30
    merged_at := some 10 }

/-- A merged request: created at 2, merged at 20, updated at 25. -/
def mrLateMergeEarlyUpdate : ActivityEntry :=
  { emptyEntry with
    title := some "B"
    projectName := some "repo"
    id := some 2
    iid := some 2
    created_at := some 2
    updated_at := some 25
    merged_at := some 20 }

/-- A discovered repository with no activity at all. -/
def inactiveProject : ProjectResult := ⟨"42", "Repo", "grp/repo", [], [], [], [], [], [], []⟩

/-- The default configuration values of the source. -/
def defaultConfig : ReportConfig :=
  ⟨"GitLab Engineering Team Velocity", "October 10, 2026", "Internal", "Client", []⟩

/-! ## Lemmas about the chunker -/

theorem hardSplitGo_mem_length (limit : Nat) :
    ∀ fuel l, ∀ c ∈ hardSplitGo limit fuel l, c.length ≤ limit := by
  intro fuel
  induction fuel with
  | zero => intro l c hc; cases l <;> simp [hardSplitGo] at hc
  | succ n ih =>
    intro l c hc
    cases l with
    | nil => simp [hardSplitGo] at hc
    | cons a as =>
      simp only [hardSplitGo, List.mem_cons] at hc
      rcases hc with h | h
      · subst h; simp [List.length_take]
      · exact ih _ _ h

theorem hardSplitGo_flatten (limit : Nat) (hlim : 1 ≤ limit) :
    ∀ fuel l, l.length ≤ fuel → (hardSplitGo limit fuel l).flatten = l := by
  intro fuel
  induction fuel with
  | zero =>
    intro l hl
    have : l = [] := List.length_eq_zero.mp (Nat.le_zero.mp hl)
    subst this; rfl
  | succ n ih =>
    intro l hl
    cases l with
    | nil => rfl
    | cons a as =>
      simp only [hardSplitGo, List.flatten_cons]
      rw [ih ((a :: as).drop limit) (by simp [List.length_drop] at hl ⊢; omega)]
      exact List.take_append_drop _ _

theorem hardSplitGo_mem_ne_nil (limit : Nat) (hlim : 1 ≤ limit) :
    ∀ fuel l, ∀ c ∈ hardSplitGo limit fuel l, c ≠ [] := by
  intro fuel
  induction fuel with
  | zero => intro l c hc; cases l <;> simp [hardSplitGo] at hc
  | succ n ih =>
    intro l c hc
    cases l with
    | nil => simp [hardSplitGo] at hc
    | cons a as =>
      simp only [hardSplitGo, List.mem_cons] at hc
      rcases hc with h | h
      · subst h
        obtain ⟨k, rfl⟩ := Nat.exists_eq_add_of_le hlim
        simp [List.take_cons]
      · exact ih _ _ h

theorem hardSplitGo_map_length (limit : Nat) (hlim : 1 ≤ limit) :
    ∀ fuel l, l.length ≤ fuel →
      (hardSplitGo limit fuel l).map List.length = sliceLensGo limit fuel l.length := by
  intro fuel
  induction fuel with
  | zero =>
    intro l hl
    have : l = [] := List.length_eq_zero.mp (Nat.le_zero.mp hl)
    subst this; rfl
  | succ n ih =>
    intro l hl
    cases l with
    | nil => rfl
    | cons a as =>
      simp only [hardSplitGo, List.map_cons, List.length_take, List.length_cons]
      rw [ih ((a :: as).drop limit) (by simp [List.length_drop] at hl ⊢; omega)]
      simp only [sliceLensGo, List.length_drop, List.length_cons]

theorem hardSplit_mem_length (limit : Nat) (l : List Char) :
    ∀ c ∈ hardSplit limit l, c.length ≤ limit :=
  hardSplitGo_mem_length limit l.length l

theorem hardSplit_flatten (limit : Nat) (hlim : 1 ≤ limit) (l : List Char) :
    (hardSplit limit l).flatten = l :=
  hardSplitGo_flatten limit hlim l.length l (Nat.le_refl _)

theorem hardSplit_mem_ne_nil (limit : Nat) (hlim : 1 ≤ limit) (l : List Char) :
    ∀ c ∈ hardSplit limit l, c ≠ [] :=
  hardSplitGo_mem_ne_nil limit hlim l.length l

theorem hardSplit_map_length (limit : Nat) (hlim : 1 ≤ limit) (l : List Char) :
    (hardSplit limit l).map List.length = sliceLens limit l.length :=
  hardSplitGo_map_length limit hlim l.length l (Nat.le_refl _)

theorem splitLines_ne_nil : ∀ t : List Char, splitLines t ≠ [] := by
  intro t
  cases t with
  | nil => simp [splitLines]
  | cons c rest =>
    simp only [splitLines]
    by_cases hc : c = '\n'
    · simp [hc]
    · rw [if_neg hc]
      cases h : splitLines rest <;> simp

theorem joinLines_cons (l : List Char) (ls : List (List Char)) :
    joinLines (l :: ls) = l ++ if ls.isEmpty then [] else '\n' :: joinLines ls := by
  cases ls <;> simp [joinLines]

theorem joinLines_splitLines : ∀ t : List Char, joinLines (splitLines t) = t := by
  intro t
  induction t with
  | nil => rfl
  | cons c rest ih =>
    by_cases hc : c = '\n'
    · subst hc
      simp only [splitLines, if_pos rfl]
      cases h : splitLines rest with
      | nil => exact absurd h (splitLines_ne_nil rest)
      | cons l ls =>
        rw [h] at ih
        simp [joinLines_cons, ih]
    · simp only [splitLines, if_neg hc]
      cases h : splitLines rest with
      | nil => exact absurd h (splitLines_ne_nil rest)
      | cons l ls =>
        rw [h] at ih
        cases ls with
        | nil => simpa [joinLines] using congrArg (c :: ·) ih
        | cons x xs =>
          simp only [joinLines] at ih ⊢
          rw [← ih]; rfl

theorem splitLines_no_newline : ∀ l : List Char, '\n' ∉ l → splitLines l = [l] := by
  intro l
  induction l with
  | nil => intro _; rfl
  | cons c rest ih =>
    intro h
    have hc : c ≠ '\n' := fun hcc => h (hcc ▸ List.mem_cons_self _ _)
    have hrest : '\n' ∉ rest := fun hr => h (List.mem_cons_of_mem _ hr)
    simp only [splitLines, if_neg hc, ih hrest]

theorem splitLines_append (l rest : List Char) (h : '\n' ∉ l) :
    splitLines (l ++ '\n' :: rest) = l :: splitLines rest := by
  induction l with
  | nil => simp [splitLines]
  | cons c cs ih =>
    have hc : c ≠ '\n' := fun hcc => h (hcc ▸ List.mem_cons_self _ _)
    have hcs : '\n' ∉ cs := fun hr => h (List.mem_cons_of_mem _ hr)
    simp only [List.cons_append, splitLines, if_neg hc, List.append_eq, ih hcs]

theorem chunkCore_mem_length (limit : Nat) :
    ∀ (ls : List (List Char)) (cur : List Char), cur.length ≤ limit →
      ∀ c ∈ chunkCore limit ls cur, c.length ≤ limit := by
  intro ls
  induction ls with
  | nil =>
    intro cur hcur c hc
    by_cases he : cur.isEmpty <;> simp [chunkCore, he] at hc
    exact hc ▸ hcur
  | cons line rest ih =>
    intro cur hcur c hc
    simp only [chunkCore] at hc
    by_cases h1 : (if cur.isEmpty then line else cur ++ '\n' :: line).length ≤ limit
    · rw [if_pos h1] at hc
      exact ih _ h1 c hc
    · rw [if_neg h1] at hc
      rcases List.mem_append.mp hc with h | h
      · by_cases he : cur.isEmpty <;> simp [he] at h
        exact h ▸ hcur
      · by_cases h2 : line.length ≤ limit
        · rw [if_pos h2] at h
          exact ih _ h2 c h
        · rw [if_neg h2] at h
          rcases List.mem_append.mp h with h | h
          · exact hardSplit_mem_length _ _ _ h
          · exact ih _ (by simp) c h

theorem chunkMessage_mem_length (text : List Char) (limit : Nat) :
    ∀ c ∈ chunkMessage text limit, c.length ≤ limit := by
  intro c hc
  unfold chunkMessage at hc
  by_cases ht : text.isEmpty
  · simp [ht] at hc
  · rw [if_neg ht] at hc
    exact chunkCore_mem_length limit _ [] (by simp) c hc

theorem chunkCore_mem_ne_nil (limit : Nat) (hlim : 1 ≤ limit) :
    ∀ (ls : List (List Char)) (cur : List Char), ∀ c ∈ chunkCore limit ls cur, c ≠ [] := by
  intro ls
  induction ls with
  | nil =>
    intro cur c hc
    by_cases he : cur.isEmpty <;> simp [chunkCore, he] at hc
    subst hc
    simpa [List.isEmpty_iff] using he
  | cons line rest ih =>
    intro cur c hc
    simp only [chunkCore] at hc
    by_cases h1 : (if cur.isEmpty then line else cur ++ '\n' :: line).length ≤ limit
    · rw [if_pos h1] at hc
      exact ih _ c hc
    · rw [if_neg h1] at hc
      rcases List.mem_append.mp hc with h | h
      · by_cases he : cur.isEmpty <;> simp [he] at h
        subst h
        simpa [List.isEmpty_iff] using he
      · by_cases h2 : line.length ≤ limit
        · rw [if_pos h2] at h
          exact ih _ c h
        · rw [if_neg h2] at h
          rcases List.mem_append.mp h with h | h
          · exact hardSplit_mem_ne_nil _ hlim _ _ h
          · exact ih _ c h

theorem chunkCore_nil_eq (limit : Nat) (cur : List Char) :
    chunkCore limit [] cur = if cur.isEmpty then [] else [cur] := rfl

theorem chunkCore_cons_eq (limit : Nat) (line : List Char) (rest : List (List Char))
    (cur : List Char) :
    chunkCore limit (line :: rest) cur =
      if (if cur.isEmpty then line else cur ++ '\n' :: line).length ≤ limit then
        chunkCore limit rest (if cur.isEmpty then line else cur ++ '\n' :: line)
      else
        (if cur.isEmpty then [] else [cur]) ++
          (if line.length ≤ limit then chunkCore limit rest line
           else hardSplit limit line ++ chunkCore limit rest []) := rfl

theorem chunkMessage_single_long (l : List Char) (limit : Nat) (hn : '\n' ∉ l)
    (hlen : limit < l.length) : chunkMessage l limit = hardSplit limit l := by
  have hne : l ≠ [] := by
    intro h; subst h; simp at hlen
  unfold chunkMessage
  rw [if_neg (by simpa [List.isEmpty_iff] using hne), splitLines_no_newline l hn,
    chunkCore_cons_eq]
  simp only [List.isEmpty_nil, if_true, List.nil_append]
  rw [if_neg (by omega), if_neg (by omega), chunkCore_nil_eq]
  simp

theorem pieceChunks_append (a b : List Piece) :
    pieceChunks (a ++ b) = pieceChunks a ++ pieceChunks b := by
  induction a with
  | nil => rfl
  | cons p ps ih => cases p <;> simp [pieceChunks, ih]

theorem pieceText_append (a b : List Piece) :
    pieceText (a ++ b) = pieceText a ++ pieceText b := by
  induction a with
  | nil => rfl
  | cons p ps ih => cases p <;> simp [pieceText, ih]

theorem pieceChunks_map_chunk (l : List (List Char)) :
    pieceChunks (l.map Piece.chunk) = l := by
  induction l with
  | nil => rfl
  | cons c cs ih => simp [pieceChunks, ih]

theorem pieceText_map_chunk (l : List (List Char)) :
    pieceText (l.map Piece.chunk) = l.flatten := by
  induction l with
  | nil => rfl
  | cons c cs ih => simp [pieceText, ih]

theorem chunkCoreP_nil_eq (limit : Nat) (cur : List Char) :
    chunkCoreP limit [] cur = if cur.isEmpty then [] else [.chunk cur] := rfl

theorem chunkCoreP_cons_eq (limit : Nat) (line : List Char) (rest : List (List Char))
    (cur : List Char) :
    chunkCoreP limit (line :: rest) cur =
      if (if cur.isEmpty then line else cur ++ '\n' :: line).length ≤ limit then
        chunkCoreP limit rest (if cur.isEmpty then line else cur ++ '\n' :: line)
      else
        (if cur.isEmpty then [] else [.chunk cur, .nl]) ++
          (if line.length ≤ limit then chunkCoreP limit rest line
           else (hardSplit limit line).map .chunk ++
             (if rest.isEmpty then [] else [.nl]) ++ chunkCoreP limit rest []) := rfl

theorem chunkCoreP_chunks (limit : Nat) :
    ∀ (ls : List (List Char)) (cur : List Char),
      pieceChunks (chunkCoreP limit ls cur) = chunkCore limit ls cur := by
  intro ls
  induction ls with
  | nil =>
    intro cur
    rw [chunkCoreP_nil_eq, chunkCore_nil_eq]
    by_cases he : cur.isEmpty <;> simp [he, pieceChunks]
  | cons line rest ih =>
    intro cur
    rw [chunkCoreP_cons_eq, chunkCore_cons_eq]
    by_cases h1 : (if cur.isEmpty then line else cur ++ '\n' :: line).length ≤ limit
    · rw [if_pos h1, if_pos h1, ih]
    · rw [if_neg h1, if_neg h1, pieceChunks_append]
      congr 1
      · by_cases he : cur.isEmpty <;> simp [he, pieceChunks]
      · by_cases h2 : line.length ≤ limit
        · rw [if_pos h2, if_pos h2, ih]
        · rw [if_neg h2, if_neg h2, pieceChunks_append, pieceChunks_append,
            pieceChunks_map_chunk, ih]
          congr 1
          by_cases hr : rest.isEmpty <;> simp [hr, pieceChunks]

theorem joinLines_glue (a b : List Char) (ls : List (List Char)) :
    joinLines ((a ++ '\n' :: b) :: ls) = joinLines (a :: b :: ls) := by
  cases ls <;> simp [joinLines, List.append_assoc]

theorem chunkCoreP_text (limit : Nat) (hlim : 1 ≤ limit) :
    ∀ (ls : List (List Char)) (cur : List Char), (∀ l ∈ ls, l ≠ []) →
      pieceText (chunkCoreP limit ls cur) =
        if cur.isEmpty then joinLines ls else joinLines (cur :: ls) := by
  intro ls
  induction ls with
  | nil =>
    intro cur _
    rw [chunkCoreP_nil_eq]
    by_cases he : cur.isEmpty
    · simp [he, pieceText, joinLines]
    · simp [he, pieceText, joinLines]
  | cons line rest ih =>
    intro cur hne
    have hline : line ≠ [] := hne line (List.mem_cons_self _ _)
    have hrest : ∀ l ∈ rest, l ≠ [] := fun l hl => hne l (List.mem_cons_of_mem _ hl)
    rw [chunkCoreP_cons_eq]
    by_cases h1 : (if cur.isEmpty then line else cur ++ '\n' :: line).length ≤ limit
    · rw [if_pos h1, ih _ hrest]
      by_cases he : cur.isEmpty
      · rw [if_pos he, if_pos he]
        have hle : line.isEmpty = false := by simp [List.isEmpty_iff, hline]
        simp [hle]
      · have hcur : cur ≠ [] := by simpa [List.isEmpty_iff] using he
        rw [if_neg he, if_neg he]
        have hce : (cur ++ '\n' :: line).isEmpty = false := by simp
        simp only [hce, Bool.false_eq_true, if_false]
        exact joinLines_glue cur line rest
    · rw [if_neg h1, pieceText_append]
      by_cases h2 : line.length ≤ limit
      · -- the flushed-line branch: `cur` cannot be empty here
        have hcur : ¬ cur.isEmpty := by
          intro he
          rw [if_pos he] at h1
          exact h1 h2
        have hcurne : cur ≠ [] := by simpa [List.isEmpty_iff] using hcur
        rw [if_neg hcur, if_pos h2, if_neg hcur, ih _ hrest]
        have hle : line.isEmpty = false := by simp [List.isEmpty_iff, hline]
        simp [hle, pieceText, joinLines_cons]
      · rw [if_neg h2]
        have hbase : pieceText (chunkCoreP limit rest []) = joinLines rest := by
          rw [ih _ hrest]; simp
        simp only [pieceText_append, pieceText_map_chunk, hardSplit_flatten limit hlim, hbase]
        by_cases he : cur.isEmpty
        · rw [if_pos he, if_pos he]
          by_cases hr : rest.isEmpty
          · have hre : rest = [] := by simpa [List.isEmpty_iff] using hr
            subst hre
            simp [pieceText, joinLines]
          · rw [if_neg hr]
            simp [pieceText, joinLines_cons, hr]
        · rw [if_neg he, if_neg he]
          by_cases hr : rest.isEmpty
          · have hre : rest = [] := by simpa [List.isEmpty_iff] using hr
            subst hre
            simp [pieceText, joinLines]
          · rw [if_neg hr]
            simp [pieceText, joinLines_cons, hr, List.append_assoc]

/-- Evaluation of the chunker on an 1800-character line, a blank line
and `"B"`, with the default limit 1800: the blank line is dropped. -/
theorem chunkMessage_blankline_eval (r : List Char) (hr : r.length = 1800)
    (hnl : '\n' ∉ r) : chunkMessage (r ++ '\n' :: '\n' :: ['B']) 1800 = [r, ['B']] := by
  have hne : r ≠ [] := by intro h; subst h; simp at hr
  have hrE : r.isEmpty = false := by simp [List.isEmpty_iff, hne]
  unfold chunkMessage
  rw [if_neg (by simp [List.isEmpty_iff, hne])]
  rw [splitLines_append _ _ hnl,
    show splitLines ('\n' :: ['B']) = [[], ['B']] from by decide]
  rw [chunkCore_cons_eq]
  simp only [List.isEmpty_nil, if_true]
  rw [if_pos (by simp [hr])]
  rw [chunkCore_cons_eq]
  simp only [hrE, Bool.false_eq_true, if_false]
  rw [if_neg (by simp [hr])]
  rw [if_pos (by simp : (([] : List Char)).length ≤ 1800)]
  rw [chunkCore_cons_eq]
  simp only [List.isEmpty_nil, if_true]
  rw [if_pos (by simp : (['B'] : List Char).length ≤ 1800)]
  rw [chunkCore_nil_eq]
  simp

/-! ## Claim theorems about the chunker -/

/-- C3 (confirmed): for every input text and every positive limit
(the configured default being 1800), each chunk produced by
`chunkMessage` has length at most the limit — including the chunks
obtained by hard-splitting a single over-long line; the empty input
yields zero chunks; and a single 5000-character line with limit 1800
yields exactly `ceil(5000/1800) = 3` chunks, of lengths 1800, 1800 and
1400, whose concatenation reconstructs the input. -/
theorem chunkMessage_respects_limit :
    (∀ (text : List Char) (limit : Nat), 1 ≤ limit →
      ∀ c ∈ chunkMessage text limit, c.length ≤ limit) ∧
    (∀ limit : Nat, chunkMessage [] limit = []) ∧
    (chunkMessage (List.replicate 5000 'a') 1800).map List.length = [1800, 1800, 1400] ∧
    (chunkMessage (List.replicate 5000 'a') 1800).length = (5000 + 1800 - 1) / 1800 ∧
    (chunkMessage (List.replicate 5000 'a') 1800).flatten = List.replicate 5000 'a' := by
  have hnn : '\n' ∉ List.replicate 5000 'a' := by
    rw [List.mem_replicate]
    intro h
    exact absurd h.2 (by decide)
  have hlen : 1800 < (List.replicate 5000 'a').length := by
    rw [List.length_replicate]
    omega
  have hsingle := chunkMessage_single_long (List.replicate 5000 'a') 1800 hnn hlen
  refine ⟨fun text limit _ => chunkMessage_mem_length text limit, fun limit => rfl, ?_, ?_, ?_⟩
  · rw [hsingle, hardSplit_map_length 1800 (by omega)]
    simp only [List.length_replicate]
    decide
  · rw [hsingle]
    have hm := hardSplit_map_length 1800 (by omega) (List.replicate 5000 'a')
    have hl : (hardSplit 1800 (List.replicate 5000 'a')).length =
        (sliceLens 1800 (List.replicate 5000 'a').length).length := by
      rw [← hm, List.length_map]
    rw [hl]
    simp only [List.length_replicate]
    decide
  · rw [hsingle]
    exact hardSplit_flatten 1800 (by omega) _

/-- Witness for C3: the first chunk of `"ab\ncd"` at limit 2 has length
at most 2. -/
theorem chunkMessage_respects_limit_witness : (['a', 'b'] : List Char).length ≤ 2 :=
  chunkMessage_respects_limit.1 ('a' :: 'b' :: '\n' :: 'c' :: 'd' :: []) 2 (by decide)
    ['a', 'b'] (by decide)

/-- C9 (confirmed): for every input text and every positive limit,
every chunk `chunkMessage` produces is nonempty — empty lines never
become chunks, so the dispatcher never posts a zero-length chunk. -/
theorem chunkMessage_chunks_nonempty :
    ∀ (text : List Char) (limit : Nat), 1 ≤ limit →
      ∀ c ∈ chunkMessage text limit, c ≠ [] := by
  intro text limit hlim c hc
  unfold chunkMessage at hc
  by_cases ht : text.isEmpty
  · simp [ht] at hc
  · rw [if_neg ht] at hc
    exact chunkCore_mem_ne_nil limit hlim _ [] c hc

/-- Witness for C9: the single chunk of `"a"` at limit 5 is nonempty. -/
theorem chunkMessage_chunks_nonempty_witness : (['a'] : List Char) ≠ [] :=
  chunkMessage_chunks_nonempty ['a'] 5 (by decide) ['a'] (by decide)

/-- C4 (corrected): rejoining the chunks with the removed separators
reinserted — `'\n'` at a line-boundary split, nothing at a hard split —
reproduces the input text EXACTLY ONLY when the text has no empty
lines: `pieceText`/`chunkPieces` realises exactly that reinsertion and
`pieceChunks` projects to the chunks of `chunkMessage`.  (An empty line
adjacent to a chunk boundary is dropped by the chunker, so for general
texts reconstruction fails; see the counterexample.) -/
theorem chunkMessage_rejoin (text : List Char) (limit : Nat) (hlim : 1 ≤ limit)
    (hlines : ∀ l ∈ splitLines text, l ≠ []) :
    pieceText (chunkPieces text limit) = text ∧
    pieceChunks (chunkPieces text limit) = chunkMessage text limit := by
  unfold chunkPieces chunkMessage
  by_cases ht : text.isEmpty
  · rw [if_pos ht, if_pos ht]
    have h0 : text = [] := by simpa [List.isEmpty_iff] using ht
    exact ⟨h0.symm, rfl⟩
  · rw [if_neg ht, if_neg ht]
    refine ⟨?_, chunkCoreP_chunks limit _ []⟩
    rw [chunkCoreP_text limit hlim _ [] hlines]
    simp [joinLines_splitLines]

/-- Witness for C4: rejoining the chunks of `"ab\ncd"` at limit 3
reproduces the text. -/
theorem chunkMessage_rejoin_witness :
    pieceText (chunkPieces ('a' :: 'b' :: '\n' :: 'c' :: 'd' :: []) 3) =
      'a' :: 'b' :: '\n' :: 'c' :: 'd' :: [] :=
  (chunkMessage_rejoin ('a' :: 'b' :: '\n' :: 'c' :: 'd' :: []) 3 (by decide) (by decide)).1

/-- Counterexample for C4: the 1803-character message
`"a"*1800 ++ "\n\n" ++ "B"` chunks (at the default limit 1800) into
`["a"*1800, "B"]`, and NO reinsertion of separators — neither nothing
nor a newline at the single boundary — reproduces the original text:
the empty line was dropped. -/
theorem chunkMessage_rejoin_cex :
    chunkMessage cexC4Text 1800 = [List.replicate 1800 'a', ['B']] ∧
    List.replicate 1800 'a' ++ ['B'] ≠ cexC4Text ∧
    List.replicate 1800 'a' ++ '\n' :: ['B'] ≠ cexC4Text := by
  refine ⟨?_, ?_, ?_⟩
  · exact chunkMessage_blankline_eval _ (List.length_replicate 1800 'a')
      (by rw [List.mem_replicate]; intro h; exact absurd h.2 (by decide))
  · intro h
    apply_fun List.length at h
    rw [cexC4Text] at h
    simp only [List.length_append, List.length_replicate, List.length_cons] at h
    omega
  · intro h
    apply_fun List.length at h
    rw [cexC4Text] at h
    simp only [List.length_append, List.length_replicate, List.length_cons] at h
    omega

/-! ## Lemmas about author resolution -/

theorem strVal_eq_some {x : Option String} {s : String} (h : strVal x = some s) : s ≠ "" := by
  cases x with
  | none => simp [strVal] at h
  | some t =>
    by_cases ht : t = "" <;> simp [strVal, ht] at h
    exact h ▸ ht

theorem or_eq_some_cases (a b : Option String) (s : String) (h : a.or b = some s) :
    a = some s ∨ b = some s := by
  cases a with
  | none => exact Or.inr (by simpa [Option.or] using h)
  | some x => exact Or.inl (by simpa [Option.or] using h)

/-- Every value `resolveAuthorName` returns is a nonempty string. -/
theorem resolve_ne_empty (entry : Option ActivityEntry) : resolveAuthorName entry ≠ "" := by
  cases entry with
  | none => simp [resolveAuthorName]
  | some e =>
    have hre : resolveAuthorName (some e) =
        (((((strVal (e.author.bind Author.name)).or
          (strVal (e.author.bind Author.username))).or
          (strVal e.author_name)).or
          (strVal e.author_email)).or
          (strVal (e.author.bind Author.email))).getD "Unknown" := rfl
    rw [hre]
    cases hchain : (((((strVal (e.author.bind Author.name)).or
        (strVal (e.author.bind Author.username))).or
        (strVal e.author_name)).or
        (strVal e.author_email)).or
        (strVal (e.author.bind Author.email))) with
    | none => simp
    | some s =>
      simp only [Option.getD_some]
      rcases or_eq_some_cases _ _ _ hchain with h | h
      · rcases or_eq_some_cases _ _ _ h with h | h
        · rcases or_eq_some_cases _ _ _ h with h | h
          · rcases or_eq_some_cases _ _ _ h with h | h
            · exact strVal_eq_some h
            · exact strVal_eq_some h
          · exact strVal_eq_some h
        · exact strVal_eq_some h
      · exact strVal_eq_some h

/-! ## Lemmas about the member map -/

theorem addToMember_name_mem (f : MemberSummary → MemberSummary) (name : String)
    (hf : ∀ x, (f x).name = x.name) :
    ∀ (ms : List MemberSummary), ∀ m ∈ addToMember f name ms,
      m.name = name ∨ m.name ∈ ms.map MemberSummary.name := by
  intro ms
  induction ms with
  | nil =>
    intro m hm
    simp only [addToMember, List.mem_singleton] at hm
    subst hm
    exact Or.inl (by rw [hf]; rfl)
  | cons a as ih =>
    intro m hm
    simp only [addToMember] at hm
    by_cases ha : a.name = name
    · rw [if_pos ha] at hm
      rcases List.mem_cons.mp hm with h | h
      · subst h; exact Or.inl (by rw [hf]; exact ha)
      · exact Or.inr (by simp; exact Or.inr ⟨m, h, rfl⟩)
    · rw [if_neg ha] at hm
      rcases List.mem_cons.mp hm with h | h
      · subst h; exact Or.inr (by simp)
      · rcases ih m h with h2 | h2
        · exact Or.inl h2
        · exact Or.inr (by simp at h2 ⊢; exact Or.inr h2)

theorem addToMember_names (f : MemberSummary → MemberSummary) (name : String)
    (hf : ∀ x, (f x).name = x.name) :
    ∀ ms : List MemberSummary,
      (addToMember f name ms).map MemberSummary.name =
        if name ∈ ms.map MemberSummary.name then ms.map MemberSummary.name
        else ms.map MemberSummary.name ++ [name] := by
  intro ms
  induction ms with
  | nil => simp [addToMember, hf, blankMember]
  | cons a as ih =>
    simp only [addToMember, List.map_cons]
    by_cases ha : a.name = name
    · rw [if_pos ha]
      rw [if_pos (by simp [ha])]
      simp [hf, ha]
    · rw [if_neg ha]
      simp only [List.map_cons, ih]
      by_cases hmem : name ∈ as.map MemberSummary.name
      · rw [if_pos hmem, if_pos (by simp [hmem])]
      · rw [if_neg hmem, if_neg (by simp [hmem]; exact fun h => ha h.symm)]
        simp

theorem foldl_stepWith_names_pred (inc : MemberSummary → MemberSummary)
    (hinc : ∀ x, (inc x).name = x.name) :
    ∀ (l : List ActivityEntry) (ms : List MemberSummary),
      (∀ m ∈ ms, m.name ≠ "") → ∀ m ∈ l.foldl (stepWith inc) ms, m.name ≠ "" := by
  intro l
  induction l with
  | nil => intro ms h m hm; exact h m hm
  | cons r rs ih =>
    intro ms h m hm
    simp only [List.foldl_cons] at hm
    refine ih _ ?_ m hm
    intro x hx
    simp only [stepWith] at hx
    rcases addToMember_name_mem inc _ hinc ms x hx with h1 | h1
    · rw [h1]; exact resolve_ne_empty _
    · rcases List.mem_map.mp h1 with ⟨y, hy, hyn⟩
      rw [← hyn]; exact h y hy

theorem foldl_stepWith_names_nodup (inc : MemberSummary → MemberSummary)
    (hinc : ∀ x, (inc x).name = x.name) :
    ∀ (l : List ActivityEntry) (ms : List MemberSummary),
      (ms.map MemberSummary.name).Nodup →
      ((l.foldl (stepWith inc) ms).map MemberSummary.name).Nodup := by
  intro l
  induction l with
  | nil => intro ms h; exact h
  | cons r rs ih =>
    intro ms h
    simp only [List.foldl_cons]
    refine ih _ ?_
    simp only [stepWith, addToMember_names inc _ hinc]
    by_cases hmem : resolveAuthorName (some r) ∈ ms.map MemberSummary.name
    · rw [if_pos hmem]; exact h
    · rw [if_neg hmem]
      simp [List.nodup_append, h, hmem]

theorem addToMember_commits_sum (inc : MemberSummary → MemberSummary) (k : Nat)
    (hinc : ∀ x, (inc x).commits = x.commits + k) (name : String) :
    ∀ ms : List MemberSummary,
      ((addToMember inc name ms).map MemberSummary.commits).sum =
        (ms.map MemberSummary.commits).sum + k := by
  intro ms
  induction ms with
  | nil => simp [addToMember, hinc, blankMember]
  | cons a as ih =>
    simp only [addToMember]
    by_cases ha : a.name = name
    · rw [if_pos ha]
      simp only [List.map_cons, List.sum_cons, hinc]
      omega
    · rw [if_neg ha]
      simp only [List.map_cons, List.sum_cons, ih]
      omega

theorem foldl_stepWith_commits_sum (inc : MemberSummary → MemberSummary) (k : Nat)
    (hinc : ∀ x, (inc x).commits = x.commits + k) :
    ∀ (l : List ActivityEntry) (ms : List MemberSummary),
      ((l.foldl (stepWith inc) ms).map MemberSummary.commits).sum =
        (ms.map MemberSummary.commits).sum + k * l.length := by
  intro l
  induction l with
  | nil => intro ms; simp
  | cons r rs ih =>
    intro ms
    simp only [List.foldl_cons, ih, stepWith, addToMember_commits_sum inc k hinc,
      List.length_cons]
    ring

/-- Total commit count carried by the accumulated member entries. -/
theorem memberAccum_commits_sum (b : ActivityBatch) :
    ((memberAccum b).map MemberSummary.commits).sum = b.commits.length := by
  unfold memberAccum
  rw [foldl_stepWith_commits_sum
      (fun m => { m with issuesClosed := m.issuesClosed + 1 }) 0 (fun x => rfl),
    foldl_stepWith_commits_sum
      (fun m => { m with issuesOpened := m.issuesOpened + 1 }) 0 (fun x => rfl),
    foldl_stepWith_commits_sum
      (fun m => { m with openedMrs := m.openedMrs + 1 }) 0 (fun x => rfl),
    foldl_stepWith_commits_sum
      (fun m => { m with mergedMrs := m.mergedMrs + 1 }) 0 (fun x => rfl),
    foldl_stepWith_commits_sum
      (fun m => { m with commits := m.commits + 1 }) 1 (fun x => rfl)]
  simp

/-- The accumulated entries have nonempty, pairwise-distinct names. -/
theorem memberAccum_names (b : ActivityBatch) :
    (∀ m ∈ memberAccum b, m.name ≠ "") ∧
      ((memberAccum b).map MemberSummary.name).Nodup := by
  unfold memberAccum
  constructor
  · refine foldl_stepWith_names_pred
      (fun m => { m with issuesClosed := m.issuesClosed + 1 }) (fun x => rfl) _ _ ?_
    refine foldl_stepWith_names_pred
      (fun m => { m with issuesOpened := m.issuesOpened + 1 }) (fun x => rfl) _ _ ?_
    refine foldl_stepWith_names_pred
      (fun m => { m with openedMrs := m.openedMrs + 1 }) (fun x => rfl) _ _ ?_
    refine foldl_stepWith_names_pred
      (fun m => { m with mergedMrs := m.mergedMrs + 1 }) (fun x => rfl) _ _ ?_
    refine foldl_stepWith_names_pred
      (fun m => { m with commits := m.commits + 1 }) (fun x => rfl) _ _ ?_
    simp
  · refine foldl_stepWith_names_nodup
      (fun m => { m with issuesClosed := m.issuesClosed + 1 }) (fun x => rfl) _ _ ?_
    refine foldl_stepWith_names_nodup
      (fun m => { m with issuesOpened := m.issuesOpened + 1 }) (fun x => rfl) _ _ ?_
    refine foldl_stepWith_names_nodup
      (fun m => { m with openedMrs := m.openedMrs + 1 }) (fun x => rfl) _ _ ?_
    refine foldl_stepWith_names_nodup
      (fun m => { m with mergedMrs := m.mergedMrs + 1 }) (fun x => rfl) _ _ ?_
    refine foldl_stepWith_names_nodup
      (fun m => { m with commits := m.commits + 1 }) (fun x => rfl) _ _ ?_
    simp

/-! ## Lemmas about the contributor ranking -/

theorem memberLE_total : ∀ a b : MemberSummary, MemberLE a b ∨ MemberLE b a := by
  intro a b
  unfold MemberLE
  rcases lt_trichotomy b.mergedMrs a.mergedMrs with h1 | h1 | h1
  · exact Or.inl (Or.inl h1)
  · rcases lt_trichotomy b.commits a.commits with h2 | h2 | h2
    · exact Or.inl (Or.inr ⟨h1, Or.inl h2⟩)
    · rcases lt_trichotomy b.issuesClosed a.issuesClosed with h3 | h3 | h3
      · exact Or.inl (Or.inr ⟨h1, Or.inr ⟨h2, Or.inl h3⟩⟩)
      · rcases le_total a.name.data b.name.data with h4 | h4
        · exact Or.inl (Or.inr ⟨h1, Or.inr ⟨h2, Or.inr ⟨h3, h4⟩⟩⟩)
        · exact Or.inr (Or.inr ⟨h1.symm, Or.inr ⟨h2.symm, Or.inr ⟨h3.symm, h4⟩⟩⟩)
      · exact Or.inr (Or.inr ⟨h1.symm, Or.inr ⟨h2.symm, Or.inl h3⟩⟩)
    · exact Or.inr (Or.inr ⟨h1.symm, Or.inl h2⟩)
  · exact Or.inr (Or.inl h1)

theorem memberLE_trans :
    ∀ a b c : MemberSummary, MemberLE a b → MemberLE b c → MemberLE a c := by
  intro a b c hab hbc
  unfold MemberLE at *
  rcases hab with h1 | ⟨e1, hab⟩
  · rcases hbc with h2 | ⟨e2, _⟩
    · exact Or.inl (h2.trans h1)
    · exact Or.inl (e2 ▸ h1)
  · rcases hbc with h2 | ⟨e2, hbc⟩
    · exact Or.inl (by omega)
    · refine Or.inr ⟨e2.trans e1, ?_⟩
      rcases hab with f1 | ⟨f1, hab⟩
      · rcases hbc with g1 | ⟨g1, _⟩
        · exact Or.inl (g1.trans f1)
        · exact Or.inl (by omega)
      · rcases hbc with g1 | ⟨g1, hbc⟩
        · exact Or.inl (by omega)
        · refine Or.inr ⟨g1.trans f1, ?_⟩
          rcases hab with k1 | ⟨k1, hab⟩
          · rcases hbc with l1 | ⟨l1, _⟩
            · exact Or.inl (l1.trans k1)
            · exact Or.inl (by omega)
          · rcases hbc with l1 | ⟨l1, hbc⟩
            · exact Or.inl (by omega)
            · exact Or.inr ⟨l1.trans k1, le_trans hab hbc⟩

theorem memberLE_antisymm_name :
    ∀ a b : MemberSummary, MemberLE a b → MemberLE b a → a.name = b.name := by
  intro a b hab hba
  unfold MemberLE at *
  rcases hab with h1 | ⟨e1, h2 | ⟨e2, h3 | ⟨e3, h4⟩⟩⟩ <;>
    rcases hba with g1 | ⟨f1, g2 | ⟨f2, g3 | ⟨f3, g4⟩⟩⟩ <;>
    first
      | omega
      | exact String.ext (le_antisymm h4 g4)

theorem memberLT_irrefl : ∀ a : MemberSummary, ¬ MemberLT a a :=
  fun _ h => h.2 h.1

theorem memberLT_trans :
    ∀ a b c : MemberSummary, MemberLT a b → MemberLT b c → MemberLT a c :=
  fun _ _ _ hab hbc =>
    ⟨memberLE_trans _ _ _ hab.1 hbc.1,
      fun h => hab.2 (memberLE_trans _ _ _ hbc.1 h)⟩

theorem memberLT_total_of_ne_name :
    ∀ a b : MemberSummary, a.name ≠ b.name → MemberLT a b ∨ MemberLT b a := by
  intro a b hne
  rcases memberLE_total a b with h | h
  · by_cases hba : MemberLE b a
    · exact absurd (memberLE_antisymm_name a b h hba) hne
    · exact Or.inl ⟨h, hba⟩
  · by_cases hab : MemberLE a b
    · exact absurd (memberLE_antisymm_name a b hab h) hne
    · exact Or.inr ⟨h, hab⟩

theorem memberLT_name_iff (a b : MemberSummary) (h1 : a.mergedMrs = b.mergedMrs)
    (h2 : a.commits = b.commits) (h3 : a.issuesClosed = b.issuesClosed) :
    MemberLT a b ↔ a.name.data < b.name.data := by
  unfold MemberLT MemberLE
  constructor
  · rintro ⟨hle, hnle⟩
    have h4 : a.name.data ≤ b.name.data := by
      rcases hle with h | ⟨_, h | ⟨_, h | ⟨_, h⟩⟩⟩ <;> first | omega | exact h
    have h5 : ¬ b.name.data ≤ a.name.data := fun hba =>
      hnle (Or.inr ⟨h1, Or.inr ⟨h2, Or.inr ⟨h3, hba⟩⟩⟩)
    exact lt_of_le_not_le h4 h5
  · intro hlt
    refine ⟨Or.inr ⟨h1.symm, Or.inr ⟨h2.symm, Or.inr ⟨h3.symm, le_of_lt hlt⟩⟩⟩, ?_⟩
    rintro (h | ⟨_, h | ⟨_, h | ⟨_, h⟩⟩⟩) <;>
      first | omega | exact absurd h (not_le.mpr hlt)

/-! ## Lemmas connecting `buildMemberSummaries` to its phases -/

theorem applyCommitPct_names (t : Nat) (ms : List MemberSummary) :
    (applyCommitPct t ms).map MemberSummary.name = ms.map MemberSummary.name := by
  unfold applyCommitPct
  rw [List.map_map]
  exact List.map_congr_left fun m _ => rfl

theorem applyCommitPct_commits (t : Nat) (ms : List MemberSummary) :
    (applyCommitPct t ms).map MemberSummary.commits = ms.map MemberSummary.commits := by
  unfold applyCommitPct
  rw [List.map_map]
  exact List.map_congr_left fun m _ => rfl

theorem buildMemberSummaries_pct_mem (b : ActivityBatch) :
    ∀ m ∈ buildMemberSummaries b,
      m.commitPct = if b.commits.length = 0 then 0
        else (200 * m.commits + b.commits.length) / (2 * b.commits.length) := by
  intro m hm
  unfold buildMemberSummaries at hm
  rw [List.mem_insertionSort] at hm
  unfold applyCommitPct at hm
  rcases List.mem_map.mp hm with ⟨x, _, rfl⟩
  rfl

/-! ## Claim theorems about contributor summaries -/

/-- C5 (confirmed): contributor summaries are sorted by merged requests
descending, then commits descending, then issues closed descending,
then name ascending; the distinct summaries carry pairwise-distinct
names, and on those the ranking is a strict total order — in
particular, two summaries with equal counts are ordered by the
lexicographically earlier name. -/
theorem memberRanking_strict_total_order :
    (∀ b : ActivityBatch, (buildMemberSummaries b).Pairwise MemberLE) ∧
    (∀ b : ActivityBatch,
      (buildMemberSummaries b).Pairwise fun x y => x.name ≠ y.name) ∧
    (∀ a b : MemberSummary, a.mergedMrs = b.mergedMrs → a.commits = b.commits →
      a.issuesClosed = b.issuesClosed → (MemberLT a b ↔ a.name.data < b.name.data)) ∧
    (∀ a : MemberSummary, ¬ MemberLT a a) ∧
    (∀ a b c : MemberSummary, MemberLT a b → MemberLT b c → MemberLT a c) ∧
    (∀ a b : MemberSummary, a.name ≠ b.name → MemberLT a b ∨ MemberLT b a) := by
  refine ⟨?_, ?_, memberLT_name_iff, memberLT_irrefl, memberLT_trans,
    memberLT_total_of_ne_name⟩
  · intro b
    haveI : IsTotal MemberSummary MemberLE := ⟨memberLE_total⟩
    haveI : IsTrans MemberSummary MemberLE := ⟨memberLE_trans⟩
    exact List.sorted_insertionSort MemberLE _
  · intro b
    have hperm : List.Perm ((buildMemberSummaries b).map MemberSummary.name)
        ((applyCommitPct b.commits.length (memberAccum b)).map MemberSummary.name) :=
      (List.perm_insertionSort _ _).map _
    rw [applyCommitPct_names] at hperm
    have hnd : ((buildMemberSummaries b).map MemberSummary.name).Nodup :=
      hperm.nodup_iff.mpr (memberAccum_names b).2
    exact List.pairwise_map.mp hnd

/-- Witness for C5: with equal merged, commit and issues-closed counts,
Alice sorts strictly before Bob. -/
theorem memberRanking_strict_total_order_witness :
    MemberLT ⟨"Alice", 2, 50, 1, 0, 0, 3⟩ ⟨"Bob", 2, 50, 1, 0, 0, 3⟩ :=
  (memberRanking_strict_total_order.2.2.1 ⟨"Alice", 2, 50, 1, 0, 0, 3⟩
    ⟨"Bob", 2, 50, 1, 0, 0, 3⟩ rfl rfl rfl).mpr (by decide)

/-! ## The commit-percentage arithmetic -/

theorem roundPct_sum_bounds (T : Nat) (hT : 0 < T) :
    ∀ cs : List Nat,
      2 * T * ((cs.map fun c => (200 * c + T) / (2 * T)).sum) ≤
          200 * cs.sum + cs.length * T ∧
        200 * cs.sum + cs.length ≤
          2 * T * ((cs.map fun c => (200 * c + T) / (2 * T)).sum) + cs.length * T := by
  intro cs
  induction cs with
  | nil => simp
  | cons c rest ih =>
    have hd : 0 < 2 * T := by omega
    have hdiv := Nat.div_add_mod (200 * c + T) (2 * T)
    have hmod : (200 * c + T) % (2 * T) < 2 * T := Nat.mod_lt _ hd
    simp only [List.map_cons, List.sum_cons, List.length_cons]
    constructor
    · have e1 : 2 * T * ((200 * c + T) / (2 * T) + (rest.map fun c => (200 * c + T) / (2 * T)).sum) =
          2 * T * ((200 * c + T) / (2 * T)) +
            2 * T * ((rest.map fun c => (200 * c + T) / (2 * T)).sum) := by ring
      rw [e1]
      have e2 : 200 * (c + rest.sum) + (rest.length + 1) * T =
          (200 * c + T) + (200 * rest.sum + rest.length * T) := by ring
      rw [e2]
      exact Nat.add_le_add (by omega) ih.1
    · have e1 : 2 * T * ((200 * c + T) / (2 * T) + (rest.map fun c => (200 * c + T) / (2 * T)).sum) +
          (rest.length + 1) * T =
          (2 * T * ((200 * c + T) / (2 * T)) + T) +
            (2 * T * ((rest.map fun c => (200 * c + T) / (2 * T)).sum) + rest.length * T) := by
        ring
      rw [e1]
      have e2 : 200 * (c + rest.sum) + (rest.length + 1) =
          (200 * c + 1) + (200 * rest.sum + rest.length) := by ring
      rw [e2]
      exact Nat.add_le_add (by omega) ih.2

/-- C6 (confirmed): each commit percentage is the integer (half-up)
rounding of `100 * commits / totalCommits` when there are commits, is 0
for everyone when there are none, and the percentage column sums to 100
within rounding: `|sum − 100| ≤ n/2` for `n` contributors, stated as
`200 − n ≤ 2·sum ≤ 200 + n`. -/
theorem commitPct_correct (b : ActivityBatch) :
    (b.commits.length = 0 → ∀ m ∈ buildMemberSummaries b, m.commitPct = 0) ∧
    (0 < b.commits.length →
      (∀ m ∈ buildMemberSummaries b,
        m.commitPct = (200 * m.commits + b.commits.length) / (2 * b.commits.length)) ∧
      200 ≤ 2 * ((buildMemberSummaries b).map MemberSummary.commitPct).sum +
        (buildMemberSummaries b).length ∧
      2 * ((buildMemberSummaries b).map MemberSummary.commitPct).sum ≤
        200 + (buildMemberSummaries b).length) := by
  constructor
  · intro h0 m hm
    rw [buildMemberSummaries_pct_mem b m hm, if_pos h0]
  · intro hT
    have hTne : ¬ b.commits.length = 0 := by omega
    refine ⟨fun m hm => by rw [buildMemberSummaries_pct_mem b m hm, if_neg hTne], ?_, ?_⟩
    all_goals
      have hperm : List.Perm ((buildMemberSummaries b).map MemberSummary.commitPct)
          ((applyCommitPct b.commits.length (memberAccum b)).map MemberSummary.commitPct) :=
        (List.perm_insertionSort _ _).map _
      have hsum : ((buildMemberSummaries b).map MemberSummary.commitPct).sum =
          ((applyCommitPct b.commits.length (memberAccum b)).map MemberSummary.commitPct).sum :=
        hperm.sum_eq
      have hmap : (applyCommitPct b.commits.length (memberAccum b)).map MemberSummary.commitPct =
          ((memberAccum b).map MemberSummary.commits).map
            (fun c => (200 * c + b.commits.length) / (2 * b.commits.length)) := by
        unfold applyCommitPct
        rw [List.map_map, List.map_map]
        refine List.map_congr_left fun m _ => ?_
        simp only [Function.comp]
        rw [if_neg hTne]
      have hlen : (buildMemberSummaries b).length = (memberAccum b).length := by
        unfold buildMemberSummaries
        rw [(List.perm_insertionSort MemberLE
          (applyCommitPct b.commits.length (memberAccum b))).length_eq]
        unfold applyCommitPct
        rw [List.length_map]
      have harith := roundPct_sum_bounds b.commits.length hT
        ((memberAccum b).map MemberSummary.commits)
      rw [memberAccum_commits_sum, List.length_map] at harith
      rw [hsum, hmap, hlen]
    · -- lower bound
      have h2 : b.commits.length * 200 ≤ b.commits.length *
          (2 * (((memberAccum b).map MemberSummary.commits).map
            (fun c => (200 * c + b.commits.length) / (2 * b.commits.length))).sum +
            (memberAccum b).length) := by
        have := harith.2
        nlinarith [harith.2]
      exact Nat.le_of_mul_le_mul_left h2 hT
    · -- upper bound
      have h2 : b.commits.length *
          (2 * (((memberAccum b).map MemberSummary.commits).map
            (fun c => (200 * c + b.commits.length) / (2 * b.commits.length))).sum) ≤
          b.commits.length * (200 + (memberAccum b).length) := by
        nlinarith [harith.1]
      exact Nat.le_of_mul_le_mul_left h2 hT

/-- Witness for C6: with 3 commits by Alice and 2 by Bob the rounded
percentages (60 and 40) sum within rounding of 100. -/
theorem commitPct_correct_witness :
    200 ≤ 2 * ((buildMemberSummaries batchAliceBob).map MemberSummary.commitPct).sum +
      (buildMemberSummaries batchAliceBob).length :=
  ((commitPct_correct batchAliceBob).2 (by decide)).2.1

/-! ## Claim theorems about author resolution -/

/-- C7 (confirmed): the resolved display name follows the fallback
chain structured author name → username → raw `author_name` →
`author_email` → structured author email → `"Unknown"` (empty strings
count as absent).  In particular a record whose only populated author
field is an email resolves to that email, and a record with no author
fields resolves to `"Unknown"`. -/
theorem resolveAuthorName_fallback_chain :
    resolveAuthorName none = "Unknown" ∧
    (∀ e : ActivityEntry,
      strVal (e.author.bind Author.name) = none →
      strVal (e.author.bind Author.username) = none →
      strVal e.author_name = none →
      strVal e.author_email = none →
      strVal (e.author.bind Author.email) = none →
      resolveAuthorName (some e) = "Unknown") ∧
    (∀ (e : ActivityEntry) (s : String),
      strVal (e.author.bind Author.name) = some s →
      resolveAuthorName (some e) = s) ∧
    (∀ (e : ActivityEntry) (s : String),
      strVal (e.author.bind Author.name) = none →
      strVal (e.author.bind Author.username) = some s →
      resolveAuthorName (some e) = s) ∧
    (∀ (e : ActivityEntry) (s : String),
      strVal (e.author.bind Author.name) = none →
      strVal (e.author.bind Author.username) = none →
      strVal e.author_name = some s →
      resolveAuthorName (some e) = s) ∧
    (∀ (e : ActivityEntry) (s : String),
      strVal (e.author.bind Author.name) = none →
      strVal (e.author.bind Author.username) = none →
      strVal e.author_name = none →
      strVal e.author_email = some s →
      resolveAuthorName (some e) = s) ∧
    (∀ (e : ActivityEntry) (s : String),
      strVal (e.author.bind Author.name) = none →
      strVal (e.author.bind Author.username) = none →
      strVal e.author_name = none →
      strVal e.author_email = none →
      strVal (e.author.bind Author.email) = some s →
      resolveAuthorName (some e) = s) := by
  have hre : ∀ e : ActivityEntry, resolveAuthorName (some e) =
      (((((strVal (e.author.bind Author.name)).or
        (strVal (e.author.bind Author.username))).or
        (strVal e.author_name)).or
        (strVal e.author_email)).or
        (strVal (e.author.bind Author.email))).getD "Unknown" := fun e => rfl
  refine ⟨rfl, ?_, ?_, ?_, ?_, ?_, ?_⟩
  · intro e h1 h2 h3 h4 h5
    rw [hre e, h1, h2, h3, h4, h5]
    rfl
  · intro e s h1
    rw [hre e, h1]
    rfl
  · intro e s h1 h2
    rw [hre e, h1, h2]
    rfl
  · intro e s h1 h2 h3
    rw [hre e, h1, h2, h3]
    rfl
  · intro e s h1 h2 h3 h4
    rw [hre e, h1, h2, h3, h4]
    rfl
  · intro e s h1 h2 h3 h4 h5
    rw [hre e, h1, h2, h3, h4, h5]
    rfl

/-- Witness for C7: a record carrying only `author_email` resolves to
that email. -/
theorem resolveAuthorName_fallback_chain_witness :
    resolveAuthorName (some emailOnlyEntry) = "dev@example.com" :=
  resolveAuthorName_fallback_chain.2.2.2.2.2.1 emailOnlyEntry "dev@example.com"
    rfl rfl rfl rfl

/-- C10 (confirmed): author resolution always returns a nonempty string
(fields holding the empty string fall through the chain, `"Unknown"`
closes it), so no contributor summary is ever keyed by an empty name. -/
theorem resolveAuthorName_nonempty :
    (∀ entry : Option ActivityEntry, resolveAuthorName entry ≠ "") ∧
    (∀ b : ActivityBatch, ∀ m ∈ buildMemberSummaries b, m.name ≠ "") := by
  refine ⟨resolve_ne_empty, ?_⟩
  intro b m hm
  rw [buildMemberSummaries, List.mem_insertionSort] at hm
  unfold applyCommitPct at hm
  rcases List.mem_map.mp hm with ⟨x, hx, rfl⟩
  exact (memberAccum_names b).1 x hx

/-- Witness for C10: the summary keyed `"Alice"` in the concrete batch
has a nonempty name. -/
theorem resolveAuthorName_nonempty_witness :
    (⟨"Alice", 3, 60, 0, 0, 0, 0⟩ : MemberSummary).name ≠ "" :=
  resolveAuthorName_nonempty.2 batchAliceBob ⟨"Alice", 3, 60, 0, 0, 0, 0⟩ (by decide)

/-! ## Claim theorems about the velocity highlights -/

/-- C1 (corrected): whenever the velocity block renders, its merge-rate
line shows `round(100·merged/d)` with `d = opened` when `opened > 0`,
else `d = merged` when `merged > 0`, else `d = 1` (the source's
`totalMROpened || totalMRMerged || 1`) — which coincides with the
spec's `max(opened, merged, 1)` exactly when `opened = 0` or
`merged ≤ opened`, and differs when `0 < opened < merged`. -/
theorem velocityMergeRate_denominator (v : VelocityStats) :
    (¬(v.totalMRMerged = 0 ∧ v.totalCommits = 0 ∧ v.totalIssuesClosed = 0) →
      formatVelocityHighlights v = some (String.intercalate "\n" (velocityLines v)) ∧
      (velocityLines v)[1]? = some ("• Merge rate: " ++
        Nat.repr (velocityMergeRate v.totalMRMerged v.totalMROpened) ++ "%")) ∧
    (v.totalMROpened = 0 ∨ v.totalMRMerged ≤ v.totalMROpened →
      velocityMergeRate v.totalMRMerged v.totalMROpened =
        specMergeRate v.totalMRMerged v.totalMROpened) := by
  constructor
  · intro h
    constructor
    · unfold formatVelocityHighlights
      rw [if_neg h]
    · show ("**🚀 Velocity Highlights**" ::
        ("• Merge rate: " ++
          Nat.repr (velocityMergeRate v.totalMRMerged v.totalMROpened) ++ "%") :: _)[1]? = _
      simp
  · intro h
    unfold velocityMergeRate specMergeRate
    have hd : (if v.totalMROpened ≠ 0 then v.totalMROpened
        else if v.totalMRMerged ≠ 0 then v.totalMRMerged else 1) =
        max v.totalMROpened (max v.totalMRMerged 1) := by
      rcases h with h | h <;> split_ifs <;> omega
    rw [hd]

/-- Witness for C1: 2 merged of 4 opened renders a 50% merge rate, and
there the code denominator agrees with the spec's max form. -/
theorem velocityMergeRate_denominator_witness :
    (velocityLines ⟨2, 4, 1, 0, [], false⟩)[1]? = some "• Merge rate: 50%" ∧
    velocityMergeRate 2 4 = specMergeRate 2 4 :=
  ⟨((velocityMergeRate_denominator ⟨2, 4, 1, 0, [], false⟩).1
      (by decide)).2.trans (by decide),
    (velocityMergeRate_denominator ⟨2, 4, 1, 0, [], false⟩).2 (Or.inr (by decide))⟩

/-- Counterexample for C1: with 5 merged and only 1 opened change
request the block renders a merge rate of 500%, while
`merged / max(opened, merged, 1)` would render 100%. -/
theorem velocityMergeRate_cex :
    velocityMergeRate 5 1 = 500 ∧ specMergeRate 5 1 = 100 ∧
    (velocityLines ⟨5, 1, 0, 0, [], false⟩)[1]? = some "• Merge rate: 500%" ∧
    formatVelocityHighlights ⟨5, 1, 0, 0, [], false⟩ =
      some "**🚀 Velocity Highlights**\n• Merge rate: 500%" := by decide

/-! ## Claim theorems about the major-features block -/

/-- C8 (corrected): the Major Features block lists the top five merged
requests ordered descending by the FIRST PRESENT of
(merged_at, updated_at, created_at) — `merged_at || updated_at ||
created_at` — not by the most recent of the three; each is rendered as
a linked title with its repository name.  The selection is the stable
descending sort truncated to five, drawn from the input. -/
theorem majorFeatures_order (mrs : List ActivityEntry) (hne : mrs ≠ []) :
    formatMajorFeatures mrs = some (String.intercalate "\n"
      ("**✨ Major Features Shipped**" :: (mfTop mrs).map mfLine)) ∧
    (mfTop mrs).length = min 5 mrs.length ∧
    (mfTop mrs).Pairwise (fun a b => mfKey b ≤ mfKey a) ∧
    (∀ mr ∈ mfTop mrs, mr ∈ mrs) := by
  refine ⟨?_, ?_, ?_, ?_⟩
  · unfold formatMajorFeatures
    rw [if_neg (by simpa [List.isEmpty_iff] using hne)]
  · unfold mfTop
    rw [List.length_take, List.length_insertionSort]
  · unfold mfTop
    refine List.Pairwise.sublist (List.take_sublist _ _) ?_
    haveI : IsTotal ActivityEntry MfLE := ⟨fun a b => le_total (mfKey b) (mfKey a)⟩
    haveI : IsTrans ActivityEntry MfLE := ⟨fun _ _ _ hab hbc => le_trans hbc hab⟩
    exact List.sorted_insertionSort MfLE mrs
  · intro mr hmr
    unfold mfTop at hmr
    exact (List.mem_insertionSort MfLE).mp (List.take_subset _ _ hmr)

/-- Witness for C8: a one-element input yields a one-element block. -/
theorem majorFeatures_order_witness :
    (mfTop [mrEarlyMergeLateUpdate]).length =
      min 5 ([mrEarlyMergeLateUpdate] : List ActivityEntry).length :=
  (majorFeatures_order [mrEarlyMergeLateUpdate] (by decide)).2.1

/-- Counterexample for C8: request A (merged at 10, updated at 30) is
most-recently touched, yet the block lists B (merged at 20, updated at
25) first, because the code keys on `merged_at` alone when present. -/
theorem majorFeatures_order_cex :
    specMostRecentTimestamp mrLateMergeEarlyUpdate <
      specMostRecentTimestamp mrEarlyMergeLateUpdate ∧
    formatMajorFeatures [mrEarlyMergeLateUpdate, mrLateMergeEarlyUpdate] =
      some "**✨ Major Features Shipped**\n• B (repo)\n• A (repo)" := by decide

/-! ## Claim theorems about the zero-activity report -/

set_option maxRecDepth 4000 in
/-- C2 (corrected): with zero active repositories the summary line is
exactly the fixed sentence and the per-organisation and major-features
blocks are absent (those formatters, like the repo table, inactive
summary, commit breakdown and velocity highlights, return `null` on
empty input) — but the bug-activity block is NOT absent:
`formatBugActivity` has no `null` branch and its block is still part of
the organizational message group. -/
theorem zeroActivity_blocks (cfg : ReportConfig) (results : List ProjectResult)
    (h : results.filter hasActivity = []) :
    summaryLineOf results = "No activity recorded in the selected window." ∧
    formatOrgSummary cfg.orgLabelInternal (internalActiveOf cfg results) = none ∧
    formatOrgSummary cfg.orgLabelClient (clientActiveOf cfg results) = none ∧
    formatMajorFeatures (allMrsMergedOf results) = none ∧
    formatBugActivity (allIssuesOpenedOf results) (allIssuesClosedOf results) ∈
      mainOrganizationalBlocks cfg results ∧
    (∀ label : String, formatOrgSummary label [] = none) ∧
    formatMajorFeatures [] = none ∧
    (∀ t1 t2 : Nat, formatRepoTable [] t1 t2 = none) ∧
    formatInactiveSummary [] = none ∧
    (∀ ms : List MemberSummary, formatCommitBreakdown ms 0 = none) ∧
    (∀ v : VelocityStats,
      v.totalMRMerged = 0 → v.totalCommits = 0 → v.totalIssuesClosed = 0 →
      formatVelocityHighlights v = none) ∧
    formatBugActivity [] [] ≠ "" := by
  have hactive : activeOf results = [] := h
  have hIO : allIssuesOpenedOf results = [] := by
    unfold allIssuesOpenedOf
    rw [hactive]
    rfl
  have hIC : allIssuesClosedOf results = [] := by
    unfold allIssuesClosedOf
    rw [hactive]
    rfl
  have hbugne : formatBugActivity [] [] ≠ "" := by decide
  refine ⟨?_, ?_, ?_, ?_, ?_, fun label => rfl, rfl, fun t1 t2 => rfl, rfl,
    fun ms => rfl, ?_, hbugne⟩
  · unfold summaryLineOf
    rw [hactive]
    rfl
  · unfold internalActiveOf
    rw [hactive]
    rfl
  · unfold clientActiveOf
    rw [hactive]
    rfl
  · unfold allMrsMergedOf
    rw [hactive]
    rfl
  · -- the bug-activity block survives `.filter(Boolean)`
    have hvel : formatVelocityHighlights (velocityStatsOf cfg results) = none := by
      unfold formatVelocityHighlights velocityStatsOf totalMRMergedOf totalCommitsOf
        totalIssuesClosedOf
      rw [hactive]
      rfl
    unfold mainOrganizationalBlocks
    rw [hvel, hIO, hIC]
    simp only [List.filterMap_cons, List.filterMap_nil]
    refine List.mem_filter.mpr ⟨?_, ?_⟩
    · simp
    · decide
  · intro v h1 h2 h3
    unfold formatVelocityHighlights
    rw [if_pos ⟨h1, h2, h3⟩]

/-- Witness for C2: one discovered, inactive repository produces the
exact no-activity summary line. -/
theorem zeroActivity_blocks_witness :
    summaryLineOf [inactiveProject] = "No activity recorded in the selected window." :=
  (zeroActivity_blocks defaultConfig [inactiveProject] (by decide)).1

set_option maxRecDepth 4000 in
/-- Counterexample for C2: with one discovered and zero active
repositories, the bug-activity block is still emitted into the
organizational message group (with a "no bug activity" note), so it is
not the case that every formatting function returns `null` on empty
input, nor that the bug-activity block is absent. -/
theorem zeroActivity_blocks_cex :
    ([inactiveProject] : List ProjectResult).filter hasActivity = [] ∧
    formatBugActivity [] [] ≠ "" ∧
    formatBugActivity [] [] ∈ mainOrganizationalBlocks defaultConfig [inactiveProject] := by
  decide

end Velocity
